import Mathlib

/-!
# mapsBenchmark.cxx: ordered map versus hash map

A shallow embedding of `src/mapsBenchmark.cxx`.

* `std::string` is a list of characters, `std::vector` a list.
* `std::mt19937` together with `std::uniform_int_distribution<>` is a parameter
  (`Rng`): a seeding function and a draw function that returns the drawn number
  and the next generator state.  Nothing is assumed about the numbers drawn;
  theorems that need the library guarantee `a ≤ draw ≤ b` state it as a hypothesis.
* `std::map` is the list of its entries in iteration order (strictly increasing
  keys); an iterator is a position in that list and `end()` is the length.
* `std::unordered_map` is a chained hash table: a list of buckets, an arbitrary
  hash function, a table that grows when the load factor would exceed one.  Its
  iteration order is the concatenation of the buckets, so it depends on the hash.
* Undefined behaviour of the C++ program (remainder by zero, indexing out of
  bounds, signed overflow, stepping an iterator past `end()`) is an explicit
  `Fault`.
* `measureTime` runs its argument exactly once; wall-clock time is not modelled.
  The counters `numFound` and `totalReservationsFound`, local to the timed
  lambdas in the source, are returned so that they can be talked about.  They
  are counted in `Nat`: both containers increment them equally often, so a
  bounded counter would agree on both sides as well.
* A counted loop `for (int i = 0; i < n; ++i)` runs `n.toNat` rounds (none for
  `n ≤ 0`); a range-based `for` is a fold over the list.

The definitions come first, then the lemmas about the two containers, then one
theorem per claim of the specification (`Claim C1` to `Claim C10`).
-/

namespace MapsBenchmark

/-! ## Faults, strings and the random source -/

/-- Ways in which a run of the C++ program leaves defined behaviour. -/
inductive Fault where
  /-- Remainder with a zero divisor (`i % dictionaryWords.size()`). -/
  | remByZero
  /-- Subscript outside the bounds of a string or vector. -/
  | outOfBounds
  /-- Signed arithmetic leaving the representable range. -/
  | overflow
  /-- Increment of an `end()` iterator. -/
  | pastEnd
  /-- The iteration budget of a modelled loop ran out. -/
  | outOfFuel
  deriving DecidableEq, Repr

/-- A `std::string`. -/
abbrev Word := List Char

/-- The random source: `seed s` is `std::mt19937 gen(s)`, and `uniform a b gen` is
one call `distrib(gen)` of a `std::uniform_int_distribution<>(a, b)`, returning the
number drawn and the advanced generator. -/
structure Rng (G : Type) where
  seed : Nat → G
  uniform : Int → Int → G → Int × G

/-- The library guarantee of `std::uniform_int_distribution<>(a, b)`: every draw
lies in `[a, b]`. -/
def Rng.DrawsWithin {G : Type} (rng : Rng G) (a b : Int) : Prop :=
  ∀ g : G, a ≤ (rng.uniform a b g).1 ∧ (rng.uniform a b g).1 ≤ b

/-- A small linear congruential generator, used to run the model on concrete inputs. -/
def lcg : Rng Nat where
  seed := fun s => s
  uniform := fun a b g => (a + ((g / 65536 : Nat) : Int) % (b - a + 1), (g * 1103515245 + 12345) % 2147483648)

/-- Line 22: `std::string characters = "abcdefghijklmnopqrstuvwxyz"`. -/
def characters : Word :=
  ['a', 'b', 'c', 'd', 'e', 'f', 'g', 'h', 'i', 'j', 'k', 'l', 'm',
   'n', 'o', 'p', 'q', 'r', 's', 't', 'u', 'v', 'w', 'x', 'y', 'z']

/-- Lines 26-28, the body of `generateRandomWord`: `n` further rounds of
`word += characters[distrib(gen)]`, where `distrib` is
`uniform_int_distribution<>(0, characters.size() - 1)`. -/
def generateRandomWordLoop {G : Type} (rng : Rng G) : Nat → G → Word → Except Fault (Word × G)
  | 0, gen, word => .ok (word, gen)
  | n + 1, gen, word =>
    let d := rng.uniform 0 ((characters.length : Int) - 1) gen
    if d.1 < 0 then .error .outOfBounds
    else
      match characters[d.1.toNat]? with
      | none => .error .outOfBounds
      | some c => generateRandomWordLoop rng n d.2 (word ++ [c])

/-- Lines 21-30: `generateRandomWord(gen, length)`.  The loop
`for (int i = 0; i < length; ++i)` runs `length` times, and not at all for a
negative `length`. -/
def generateRandomWord {G : Type} (rng : Rng G) (gen : G) (length : Int) :
    Except Fault (Word × G) :=
  generateRandomWordLoop rng length.toNat gen []

/-! ## Scenario 1: data generation -/

/-- Lines 45-47 and 53-55: `n` rounds of `vec.push_back(generateRandomWord(gen, 8))`. -/
def pushRandomWords {G : Type} (rng : Rng G) : Nat → G → List Word → Except Fault (List Word × G)
  | 0, gen, vec => .ok (vec, gen)
  | n + 1, gen, vec =>
    match generateRandomWord rng gen 8 with
    | .error e => .error e
    | .ok (w, gen1) => pushRandomWords rng n gen1 (vec ++ [w])

/-- Lines 50-52: `n` further rounds, from loop index `i`, of
`wordsToSearch.push_back(dictionaryWords[i % dictionaryWords.size()])`. -/
def pushDictionaryTerms (dictionaryWords : List Word) : Nat → Nat → List Word → Except Fault (List Word)
  | 0, _, vec => .ok vec
  | n + 1, i, vec =>
    if dictionaryWords.length = 0 then .error .remByZero
    else
      match dictionaryWords[i % dictionaryWords.length]? with
      | none => .error .outOfBounds
      | some w => pushDictionaryTerms dictionaryWords n (i + 1) (vec ++ [w])

/-- The vectors built by lines 40-55 of `testSpellCheckerScenario`; `firstHalf` is
`wordsToSearch` as it stands between the two loops that fill it. -/
structure SearchData where
  dictionaryWords : List Word
  firstHalf : List Word
  wordsToSearch : List Word
  deriving DecidableEq, Repr

/-- Lines 40-55 of `testSpellCheckerScenario`: seed the generator with 42, build the
dictionary, then the search list.  `numSearches/2` is C++ integer division, which
truncates toward zero. -/
def buildSearchData {G : Type} (rng : Rng G) (numWords numSearches : Int) :
    Except Fault SearchData :=
  match pushRandomWords rng numWords.toNat (rng.seed 42) [] with
  | .error e => .error e
  | .ok (dictionaryWords, gen1) =>
    match pushDictionaryTerms dictionaryWords (numSearches.tdiv 2).toNat 0 [] with
    | .error e => .error e
    | .ok firstHalf =>
      match pushRandomWords rng (numSearches.tdiv 2).toNat gen1 firstHalf with
      | .error e => .error e
      | .ok (wordsToSearch, _) => .ok ⟨dictionaryWords, firstHalf, wordsToSearch⟩

/-! ## `std::map`: entries in key order -/

/-- A `std::map<K, V>`: its entries in iteration order.  Every map the program
builds has strictly increasing keys (`OMap.Ordered`, kept by `OMap.assign`). -/
abbrev OMap (K V : Type) := List (K × V)

namespace OMap

variable {K V : Type} [LinearOrder K]

/-- The subscript assignment `m[k] = v`: a new entry goes to its place in key order,
an entry with an equivalent key keeps its key and takes the new value. -/
def assign : OMap K V → K → V → OMap K V
  | [], k, v => [(k, v)]
  | (k1, v1) :: rest, k, v =>
    if k < k1 then (k, v) :: (k1, v1) :: rest
    else if k1 < k then (k1, v1) :: assign rest k v
    else (k1, v) :: rest

/-- The position `m.lower_bound(k)`: the first entry whose key is not less than `k`. -/
def lower_bound : OMap K V → K → Nat
  | [], _ => 0
  | (k1, _) :: rest, k => if k1 < k then lower_bound rest k + 1 else 0

/-- The position `m.upper_bound(k)`: the first entry whose key is greater than `k`. -/
def upper_bound : OMap K V → K → Nat
  | [], _ => 0
  | (k1, _) :: rest, k => if k < k1 then 0 else upper_bound rest k + 1

/-- The position `m.find(k)`: the lower bound when its key is equivalent to `k`,
`end()` (the length) otherwise. -/
def find (m : OMap K V) (k : K) : Nat :=
  match m[lower_bound m k]? with
  | none => m.length
  | some e => if k < e.1 then m.length else lower_bound m k

/-- The class invariant of `std::map`: keys strictly increase along the iteration. -/
def Ordered (m : OMap K V) : Prop :=
  m.Pairwise (fun a b => a.1 < b.1)

end OMap

/-! ## `std::unordered_map`: a chained hash table -/

/-- A `std::unordered_map<K, V>`: the bucket array, each bucket a chain of entries.
The bucket of a key is its hash modulo the number of buckets. -/
structure UMap (K V : Type) where
  buckets : List (List (K × V))
  deriving Repr

namespace UMap

/-- A freshly constructed table: one empty bucket. -/
def empty {K V : Type} : UMap K V := ⟨[[]]⟩

/-- Iteration from `begin()` to `end()`: bucket after bucket. -/
def entries {K V : Type} (m : UMap K V) : List (K × V) := m.buckets.flatten

/-- The number of entries, `size()`. -/
def size {K V : Type} (m : UMap K V) : Nat := m.entries.length

/-- The index of the bucket that holds key `k`. -/
def bucketIndex {K V : Type} (hash : K → Nat) (m : UMap K V) (k : K) : Nat :=
  hash k % m.buckets.length

/-- The lookup `m.find(k)`: the entry with key `k` in the bucket of `k`, `none` for `end()`. -/
def find {K V : Type} [DecidableEq K] (hash : K → Nat) (m : UMap K V) (k : K) :
    Option (K × V) :=
  (m.buckets.getD (bucketIndex hash m k) []).find? (fun e => decide (e.1 = k))

/-- Link a new node `(k, v)` at the front of its bucket. -/
def place {K V : Type} (hash : K → Nat) (m : UMap K V) (k : K) (v : V) : UMap K V :=
  ⟨m.buckets.modify (fun b => (k, v) :: b) (bucketIndex hash m k)⟩

/-- Rebuild the table with `n` buckets, relinking every node. -/
def rehash {K V : Type} (hash : K → Nat) (m : UMap K V) (n : Nat) : UMap K V :=
  m.entries.foldl (fun acc e => place hash acc e.1 e.2) ⟨List.replicate n []⟩

/-- The subscript assignment `m[k] = v`: overwrite the value of the node with key `k`
if there is one; otherwise grow the table when the new node would push the load factor
above one, and link a new node. -/
def assign {K V : Type} [DecidableEq K] (hash : K → Nat) (m : UMap K V) (k : K) (v : V) :
    UMap K V :=
  match find hash m k with
  | some _ =>
    ⟨m.buckets.modify (fun b => b.map (fun e => if e.1 = k then (e.1, v) else e))
      (bucketIndex hash m k)⟩
  | none =>
    if m.buckets.length < m.size + 1 then
      place hash (rehash hash m (2 * m.buckets.length + 1)) k v
    else place hash m k v

/-- The class invariant of the hash table: there is at least one bucket, every node
sits in the bucket of its key, and no key occurs twice. -/
def WF {K V : Type} (hash : K → Nat) (m : UMap K V) : Prop :=
  0 < m.buckets.length ∧
  (∀ (i : Nat) (b : List (K × V)), m.buckets[i]? = some b →
    ∀ e ∈ b, hash e.1 % m.buckets.length = i) ∧
  (m.entries.map Prod.fst).Nodup

end UMap

/-! ## Scenario 1: loading and searching -/

/-- Lines 60-62: `for (const auto& word : dictionaryWords) dictionaryMap[word] = true`. -/
def loadDictionaryMap (dictionaryWords : List Word) : OMap Word Bool :=
  dictionaryWords.foldl (fun m word => OMap.assign m word true) []

/-- Lines 66-71: `numFound` after the search loop over the ordered map. -/
def searchMap (dictionaryMap : OMap Word Bool) (wordsToSearch : List Word) : Nat :=
  wordsToSearch.foldl
    (fun numFound word =>
      if OMap.find dictionaryMap word ≠ dictionaryMap.length then numFound + 1 else numFound) 0

/-- Lines 77-79: `for (const auto& word : dictionaryWords) dictionaryUnorderedMap[word] = true`. -/
def loadDictionaryUnorderedMap (hash : Word → Nat) (dictionaryWords : List Word) : UMap Word Bool :=
  dictionaryWords.foldl (fun m word => UMap.assign hash m word true) UMap.empty

/-- Lines 83-88: `numFound` after the search loop over the hash map. -/
def searchUnorderedMap (hash : Word → Nat) (dictionaryUnorderedMap : UMap Word Bool)
    (wordsToSearch : List Word) : Nat :=
  wordsToSearch.foldl
    (fun numFound word =>
      if (UMap.find hash dictionaryUnorderedMap word).isSome then numFound + 1 else numFound) 0

/-- The function `testSpellCheckerScenario(numWords, numSearches)` up to its output:
the two `numFound` counters, ordered map first. -/
def testSpellCheckerScenario {G : Type} (rng : Rng G) (hash : Word → Nat)
    (numWords numSearches : Int) : Except Fault (Nat × Nat) :=
  match buildSearchData rng numWords numSearches with
  | .error e => .error e
  | .ok d =>
    .ok (searchMap (loadDictionaryMap d.dictionaryWords) d.wordsToSearch,
         searchUnorderedMap hash (loadDictionaryUnorderedMap hash d.dictionaryWords)
           d.wordsToSearch)

/-! ## Scenario 2: time-based reservations -/

/-- The largest value of the narrowest `time_t` in use, a signed 32-bit integer. -/
def TIME_T_MAX : Int := 2147483647

/-- Addition in `time_t`; leaving the signed range is undefined behaviour. -/
def addTimeT (a b : Int) : Except Fault Int :=
  if -TIME_T_MAX - 1 ≤ a + b ∧ a + b ≤ TIME_T_MAX then .ok (a + b) else .error .overflow

/-- Lines 116-118: `n` rounds of `timestamps.push_back(timeDistrib(gen))`, with
`timeDistrib` a `uniform_int_distribution<>(0, 86400 * 365)`. -/
def pushTimestamps {G : Type} (rng : Rng G) : Nat → G → List Int → List Int × G
  | 0, gen, timestamps => (timestamps, gen)
  | n + 1, gen, timestamps =>
    let d := rng.uniform 0 (86400 * 365) gen
    pushTimestamps rng n d.2 (timestamps ++ [d.1])

/-- Lines 122-126: `n` rounds of drawing `start`, then
`end = start + timeDistrib(gen) % 86400` (the remainder is C++ `%`, truncating),
then `ranges.push_back({start, end})`. -/
def pushRanges {G : Type} (rng : Rng G) : Nat → G → List (Int × Int) →
    Except Fault (List (Int × Int) × G)
  | 0, gen, ranges => .ok (ranges, gen)
  | n + 1, gen, ranges =>
    let s := rng.uniform 0 (86400 * 365) gen
    let d := rng.uniform 0 (86400 * 365) s.2
    match addTimeT s.1 (d.1.tmod 86400) with
    | .error e => .error e
    | .ok stop => pushRanges rng n d.2 (ranges ++ [(s.1, stop)])

/-- Lines 131-133 and 160-162: `container[timestamps[i]] = i` for the indices from `i`
on; `timestamps` here is the part of the vector not yet visited.  The vector holds
exactly `numReservations` elements, so the loop visits each once, in order. -/
def loadLoop {M : Type} (assign : M → Int → Int → M) : List Int → Int → M → M
  | [], _, m => m
  | t :: rest, i, m => loadLoop assign rest (i + 1) (assign m t i)

/-- Last write wins, as a relation: `v` is the largest index at which `timestamps`
holds `t`. -/
def IsLastIndex (timestamps : List Int) (t v : Int) : Prop :=
  ∃ i : Nat, v = (i : Int) ∧ timestamps[i]? = some t ∧
    ∀ j : Nat, i < j → timestamps[j]? ≠ some t

/-- Lines 129-134: the ordered map after its load loop. -/
def loadReservationsMap (timestamps : List Int) : OMap Int Int :=
  loadLoop OMap.assign timestamps 0 []

/-- Lines 158-163: the hash map after its load loop. -/
def loadReservationsUnorderedMap (hash : Int → Nat) (timestamps : List Int) : UMap Int Int :=
  loadLoop (UMap.assign hash) timestamps 0 UMap.empty

/-- Lines 143-145: `for (auto it = it_start; it != it_end; ++it) totalReservationsFound++`
over a map of `size` entries, iterators being positions.  Each unit of fuel pays for one
test of the loop condition; incrementing `end()` is a fault. -/
def rangeLoop (size : Nat) : Nat → Nat → Nat → Nat → Except Fault Nat
  | 0, _, _, _ => .error .outOfFuel
  | fuel + 1, it, it_end, total =>
    if it = it_end then .ok total
    else if size ≤ it then .error .pastEnd
    else rangeLoop size fuel (it + 1) it_end (total + 1)

/-- Lines 140-145 for one range: `totalReservationsFound` after the inner loop. -/
def rangeSearchOne (reservationsMap : OMap Int Int) (range : Int × Int) (total : Nat) :
    Except Fault Nat :=
  rangeLoop reservationsMap.length (reservationsMap.length + 1)
    (OMap.lower_bound reservationsMap range.1) (OMap.upper_bound reservationsMap range.2) total

/-- Lines 138-146: `totalReservationsFound` after the range search over the ordered map,
starting from `total`. -/
def rangeSearchMap (reservationsMap : OMap Int Int) : List (Int × Int) → Nat → Except Fault Nat
  | [], total => .ok total
  | range :: ranges, total =>
    match rangeSearchOne reservationsMap range total with
    | .error e => .error e
    | .ok total1 => rangeSearchMap reservationsMap ranges total1

/-- Lines 169-173 for one range: the full scan of the hash map, counting the entries
with `time >= start && time <= end`. -/
def scanOne (reservationsUnorderedMap : UMap Int Int) (range : Int × Int) (total : Nat) : Nat :=
  reservationsUnorderedMap.entries.foldl
    (fun n e => if e.1 ≥ range.1 ∧ e.1 ≤ range.2 then n + 1 else n) total

/-- Lines 167-174: `totalReservationsFound` after the scans of the hash map. -/
def rangeSearchUnorderedMap (reservationsUnorderedMap : UMap Int Int)
    (ranges : List (Int × Int)) (total : Nat) : Nat :=
  ranges.foldl (fun n range => scanOne reservationsUnorderedMap range n) total

/-- Lines 151-154 and 179-182: copy every `(time, id)` met by the iteration to the back
of a vector. -/
def copyOut (entries : List (Int × Int)) : List (Int × Int) :=
  entries.foldl (fun sortedReservations e => sortedReservations ++ [(e.1, e.2)]) []

/-- The comparison `operator<` of `std::pair<time_t, int>`. -/
def pairLess (a b : Int × Int) : Prop := a.1 < b.1 ∨ (¬ b.1 < a.1 ∧ a.2 < b.2)

instance : DecidableRel pairLess := fun a b => by unfold pairLess; infer_instance

/-- The order `std::sort` establishes: no element is `pairLess` than one before it. -/
def pairNotAfter (a b : Int × Int) : Prop := ¬ pairLess b a

instance : DecidableRel pairNotAfter := fun a b => by unfold pairNotAfter; infer_instance

instance : IsTotal (Int × Int) pairNotAfter :=
  ⟨fun a b => by simp only [pairNotAfter, pairLess]; omega⟩

instance : IsTrans (Int × Int) pairNotAfter :=
  ⟨fun a b c => by simp only [pairNotAfter, pairLess]; omega⟩

instance : IsAntisymm (Int × Int) pairNotAfter :=
  ⟨fun a b h1 h2 => by
    simp only [pairNotAfter, pairLess] at h1 h2
    exact Prod.ext (by omega) (by omega)⟩

/-- Line 183: `std::sort(v.begin(), v.end())`, as an insertion sort by `operator<`. -/
def stdSort (v : List (Int × Int)) : List (Int × Int) := v.insertionSort pairNotAfter

/-- What the timed blocks of `testTimeReservationScenario` compute. -/
structure ReservationResult where
  foundMap : Nat
  sortedMap : List (Int × Int)
  foundUnorderedMap : Nat
  sortedUnorderedMap : List (Int × Int)
  deriving DecidableEq, Repr

/-- The function `testTimeReservationScenario(numReservations, numRanges)` up to its
output. -/
def testTimeReservationScenario {G : Type} (rng : Rng G) (hash : Int → Nat)
    (numReservations numRanges : Int) : Except Fault ReservationResult :=
  let ts := pushTimestamps rng numReservations.toNat (rng.seed 42) []
  match pushRanges rng numRanges.toNat ts.2 [] with
  | .error e => .error e
  | .ok (ranges, _) =>
    let reservationsMap := loadReservationsMap ts.1
    match rangeSearchMap reservationsMap ranges 0 with
    | .error e => .error e
    | .ok foundMap =>
      let reservationsUnorderedMap := loadReservationsUnorderedMap hash ts.1
      .ok ⟨foundMap, copyOut reservationsMap,
           rangeSearchUnorderedMap reservationsUnorderedMap ranges 0,
           stdSort (copyOut reservationsUnorderedMap.entries)⟩

/-! # Theorems -/

/-! ## The word generator -/

theorem characters_length : characters.length = 26 := rfl

theorem characters_lowercase : ∀ c ∈ characters, 'a' ≤ c ∧ c ≤ 'z' := by decide

theorem generateRandomWordLoop_ok {G : Type} (rng : Rng G) (hr : rng.DrawsWithin 0 25) :
    ∀ (n : Nat) (gen : G) (word : Word), ∃ w g,
      generateRandomWordLoop rng n gen word = .ok (word ++ w, g) ∧ w.length = n ∧
        ∀ c ∈ w, c ∈ characters := by
  intro n
  induction n with
  | zero => intro gen word; exact ⟨[], gen, by simp [generateRandomWordLoop], rfl, by simp⟩
  | succ n ih =>
    intro gen word
    obtain ⟨h0, h25⟩ := hr gen
    have hlt : (rng.uniform 0 25 gen).1.toNat < characters.length := by
      rw [characters_length]; omega
    obtain ⟨w, g, hw, hlen, hmem⟩ :=
      ih (rng.uniform 0 25 gen).2 (word ++ [characters[(rng.uniform 0 25 gen).1.toNat]])
    refine ⟨characters[(rng.uniform 0 25 gen).1.toNat] :: w, g, ?_, by simp [hlen], ?_⟩
    · have hc : ((characters.length : Int) - 1) = 25 := by rw [characters_length]; rfl
      rw [generateRandomWordLoop]
      simp only [hc]
      rw [if_neg (by omega), List.getElem?_eq_getElem hlt]
      simpa using hw
    · intro c hc
      rcases List.mem_cons.1 hc with rfl | hc
      · exact List.getElem_mem _
      · exact hmem c hc

theorem generateRandomWord_ok {G : Type} (rng : Rng G) (hr : rng.DrawsWithin 0 25)
    (gen : G) (length : Int) : ∃ w g,
      generateRandomWord rng gen length = .ok (w, g) ∧ w.length = length.toNat ∧
        ∀ c ∈ w, c ∈ characters := by
  obtain ⟨w, g, hw, hlen, hmem⟩ := generateRandomWordLoop_ok rng hr length.toNat gen []
  exact ⟨w, g, by simpa [generateRandomWord] using hw, hlen, hmem⟩

/-! ## The search list -/

theorem pushRandomWords_append {G : Type} (rng : Rng G) :
    ∀ (n : Nat) (gen : G) (vec : List Word),
      pushRandomWords rng n gen vec =
        match pushRandomWords rng n gen [] with
        | .error e => .error e
        | .ok (ws, g) => .ok (vec ++ ws, g) := by
  intro n
  induction n with
  | zero => intro gen vec; simp [pushRandomWords]
  | succ n ih =>
    intro gen vec
    rw [pushRandomWords, pushRandomWords]
    cases hgw : generateRandomWord rng gen 8 with
    | error e => rfl
    | ok p =>
      obtain ⟨w, g1⟩ := p
      simp only
      rw [ih g1 (vec ++ [w]), ih g1 ([] ++ [w])]
      cases pushRandomWords rng n g1 [] with
      | error e => rfl
      | ok q => simp

theorem pushRandomWords_ok {G : Type} (rng : Rng G) (hr : rng.DrawsWithin 0 25) :
    ∀ (n : Nat) (gen : G), ∃ ws g,
      pushRandomWords rng n gen [] = .ok (ws, g) ∧ ws.length = n ∧
        ∀ w ∈ ws, w.length = 8 ∧ ∀ c ∈ w, c ∈ characters := by
  intro n
  induction n with
  | zero => intro gen; exact ⟨[], gen, rfl, rfl, by simp⟩
  | succ n ih =>
    intro gen
    obtain ⟨w, g1, hw, hlen, hmem⟩ := generateRandomWord_ok rng hr gen 8
    obtain ⟨ws, g, hws, hlens, hmems⟩ := ih g1
    refine ⟨w :: ws, g, ?_, by simp [hlens], ?_⟩
    · rw [pushRandomWords, hw]
      simp only
      rw [pushRandomWords_append, hws]
      simp
    · intro x hx
      rcases List.mem_cons.1 hx with rfl | hx
      · exact ⟨by simpa using hlen, hmem⟩
      · exact hmems x hx

theorem pushDictionaryTerms_ok (dictionaryWords : List Word) (hne : dictionaryWords.length ≠ 0) :
    ∀ (n i : Nat) (vec : List Word), ∃ ws,
      pushDictionaryTerms dictionaryWords n i vec = .ok (vec ++ ws) ∧ ws.length = n ∧
        ∀ j, j < n → ∃ w, ws[j]? = some w ∧
          dictionaryWords[(i + j) % dictionaryWords.length]? = some w := by
  intro n
  induction n with
  | zero => intro i vec; exact ⟨[], by simp [pushDictionaryTerms], rfl, by simp⟩
  | succ n ih =>
    intro i vec
    have hlt : i % dictionaryWords.length < dictionaryWords.length :=
      Nat.mod_lt _ (Nat.pos_of_ne_zero hne)
    obtain ⟨ws, hws, hlen, hget⟩ := ih (i + 1) (vec ++ [dictionaryWords[i % dictionaryWords.length]])
    refine ⟨dictionaryWords[i % dictionaryWords.length] :: ws, ?_, by simp [hlen], ?_⟩
    · rw [pushDictionaryTerms, if_neg hne, List.getElem?_eq_getElem hlt]
      simpa using hws
    · intro j hj
      cases j with
      | zero =>
        exact ⟨dictionaryWords[i % dictionaryWords.length], by simp,
          by simp [List.getElem?_eq_getElem hlt]⟩
      | succ j =>
        obtain ⟨w, h1, h2⟩ := hget j (by omega)
        exact ⟨w, by simpa using h1, by rw [← h2]; congr 2; omega⟩

theorem pushDictionaryTerms_zero (dictionaryWords vec : List Word) (i : Nat) :
    pushDictionaryTerms dictionaryWords 0 i vec = .ok vec := rfl

theorem buildSearchData_ok {G : Type} (rng : Rng G) (hr : rng.DrawsWithin 0 25)
    (numWords numSearches : Int) (hw : 0 < numWords ∨ (numSearches.tdiv 2).toNat = 0) :
    ∃ dict g1 first fresh g2,
      pushRandomWords rng numWords.toNat (rng.seed 42) [] = .ok (dict, g1) ∧
      pushRandomWords rng (numSearches.tdiv 2).toNat g1 [] = .ok (fresh, g2) ∧
      buildSearchData rng numWords numSearches = .ok ⟨dict, first, first ++ fresh⟩ ∧
      dict.length = numWords.toNat ∧
      first.length = (numSearches.tdiv 2).toNat ∧
      fresh.length = (numSearches.tdiv 2).toNat ∧
      (∀ j, j < (numSearches.tdiv 2).toNat →
        ∃ w, first[j]? = some w ∧ dict[j % dict.length]? = some w) ∧
      (∀ w ∈ dict, w.length = 8 ∧ ∀ c ∈ w, c ∈ characters) ∧
      (∀ w ∈ fresh, w.length = 8 ∧ ∀ c ∈ w, c ∈ characters) := by
  obtain ⟨dict, g1, hdict, hdlen, hdmem⟩ := pushRandomWords_ok rng hr numWords.toNat (rng.seed 42)
  obtain ⟨fresh, g2, hfresh, hflen, hfmem⟩ :=
    pushRandomWords_ok rng hr (numSearches.tdiv 2).toNat g1
  have hfirst : ∃ first, pushDictionaryTerms dict (numSearches.tdiv 2).toNat 0 [] = .ok first ∧
      first.length = (numSearches.tdiv 2).toNat ∧
      ∀ j, j < (numSearches.tdiv 2).toNat →
        ∃ w, first[j]? = some w ∧ dict[j % dict.length]? = some w := by
    rcases hw with hw | hw
    · obtain ⟨ws, h1, h2, h3⟩ :=
        pushDictionaryTerms_ok dict (by omega) (numSearches.tdiv 2).toNat 0 []
      exact ⟨ws, by simpa using h1, h2, by simpa using h3⟩
    · rw [hw]
      exact ⟨[], rfl, rfl, by simp⟩
  obtain ⟨first, hfirst, hfl, hfget⟩ := hfirst
  refine ⟨dict, g1, first, fresh, g2, hdict, hfresh, ?_, hdlen, hfl, hflen, hfget, hdmem, hfmem⟩
  rw [buildSearchData, hdict]
  simp only
  rw [hfirst]
  simp only
  rw [pushRandomWords_append, hfresh]

theorem buildSearchData_empty_dictionary {G : Type} (rng : Rng G) (numSearches : Int)
    (h : 2 ≤ numSearches) : buildSearchData rng 0 numSearches = .error .remByZero := by
  obtain ⟨n, hn⟩ : ∃ n, (numSearches.tdiv 2).toNat = n + 1 := by
    rw [Int.tdiv_eq_ediv (by omega) (by omega)]
    exact ⟨(numSearches / 2).toNat - 1, by omega⟩
  simp [buildSearchData, pushRandomWords, hn, pushDictionaryTerms]

/-! ## The ordered map -/

namespace OMap

variable {K V : Type} [LinearOrder K]

theorem assign_mem (m : OMap K V) (k : K) (v : V) (hm : m.Ordered) (e : K × V) :
    e ∈ assign m k v ↔ e = (k, v) ∨ (e.1 ≠ k ∧ e ∈ m) := by
  induction m with
  | nil => simp [assign]
  | cons hd rest ih =>
    obtain ⟨k1, v1⟩ := hd
    have hrest : ∀ x ∈ rest, k1 < x.1 := fun x hx => (List.pairwise_cons.1 hm).1 x hx
    have ih := ih (List.pairwise_cons.1 hm).2
    rw [assign]
    by_cases h1 : k < k1
    · rw [if_pos h1]
      constructor
      · intro h
        rcases List.mem_cons.1 h with h | h
        · exact Or.inl h
        · refine Or.inr ⟨?_, h⟩
          rcases List.mem_cons.1 h with rfl | h
          · exact ne_of_gt h1
          · exact ne_of_gt (lt_trans h1 (hrest e h))
      · rintro (h | ⟨_, h⟩)
        · exact List.mem_cons.2 (Or.inl h)
        · exact List.mem_cons_of_mem _ h
    · rw [if_neg h1]
      by_cases h2 : k1 < k
      · rw [if_pos h2]
        constructor
        · intro h
          rcases List.mem_cons.1 h with rfl | h
          · exact Or.inr ⟨ne_of_lt h2, List.mem_cons_self _ _⟩
          · rcases ih.1 h with h | ⟨hne, h⟩
            · exact Or.inl h
            · exact Or.inr ⟨hne, List.mem_cons_of_mem _ h⟩
        · rintro (h | ⟨hne, h⟩)
          · exact List.mem_cons_of_mem _ (ih.2 (Or.inl h))
          · rcases List.mem_cons.1 h with rfl | h
            · exact List.mem_cons_self _ _
            · exact List.mem_cons_of_mem _ (ih.2 (Or.inr ⟨hne, h⟩))
      · rw [if_neg h2]
        have hk : k1 = k := le_antisymm (not_lt.1 h1) (not_lt.1 h2)
        subst hk
        constructor
        · intro h
          rcases List.mem_cons.1 h with h | h
          · exact Or.inl h
          · exact Or.inr ⟨ne_of_gt (hrest e h), List.mem_cons_of_mem _ h⟩
        · rintro (h | ⟨hne, h⟩)
          · exact List.mem_cons.2 (Or.inl h)
          · rcases List.mem_cons.1 h with rfl | h
            · exact absurd rfl hne
            · exact List.mem_cons_of_mem _ h

theorem assign_ordered (m : OMap K V) (k : K) (v : V) (hm : m.Ordered) :
    (assign m k v).Ordered := by
  induction m with
  | nil => simp [assign, Ordered]
  | cons hd rest ih =>
    obtain ⟨k1, v1⟩ := hd
    have hrest : ∀ x ∈ rest, k1 < x.1 := fun x hx => (List.pairwise_cons.1 hm).1 x hx
    have hro : Ordered rest := (List.pairwise_cons.1 hm).2
    rw [assign]
    by_cases h1 : k < k1
    · rw [if_pos h1]
      refine List.pairwise_cons.2 ⟨?_, hm⟩
      intro x hx
      rcases List.mem_cons.1 hx with rfl | hx
      · exact h1
      · exact lt_trans h1 (hrest x hx)
    · rw [if_neg h1]
      by_cases h2 : k1 < k
      · rw [if_pos h2]
        refine List.pairwise_cons.2 ⟨?_, ih hro⟩
        intro x hx
        rcases (assign_mem rest k v hro x).1 hx with rfl | ⟨_, hx⟩
        · exact h2
        · exact hrest x hx
      · rw [if_neg h2]
        exact List.pairwise_cons.2 ⟨hrest, hro⟩

theorem lower_bound_le_upper_bound (m : OMap K V) (s e : K) (hse : s ≤ e) :
    lower_bound m s ≤ upper_bound m e := by
  induction m with
  | nil => simp [lower_bound, upper_bound]
  | cons hd rest ih =>
    obtain ⟨k1, v1⟩ := hd
    rw [lower_bound, upper_bound]
    by_cases h1 : k1 < s
    · rw [if_pos h1, if_neg (not_lt.2 (le_trans (le_of_lt h1) hse))]
      omega
    · rw [if_neg h1]
      omega

theorem upper_bound_le_length (m : OMap K V) (e : K) : upper_bound m e ≤ m.length := by
  induction m with
  | nil => simp [upper_bound]
  | cons hd rest ih =>
    obtain ⟨k1, v1⟩ := hd
    rw [upper_bound]
    split
    · simp
    · simp; omega

theorem lower_bound_eq_countP (m : OMap K V) (s : K) (hm : m.Ordered) :
    lower_bound m s = m.countP (fun x => decide (x.1 < s)) := by
  induction m with
  | nil => simp [lower_bound]
  | cons hd rest ih =>
    obtain ⟨k1, v1⟩ := hd
    have hrest : ∀ x ∈ rest, k1 < x.1 := fun x hx => (List.pairwise_cons.1 hm).1 x hx
    rw [lower_bound, List.countP_cons]
    by_cases h1 : k1 < s
    · simp [h1, ih (List.pairwise_cons.1 hm).2]
    · have hz : rest.countP (fun x => decide (x.1 < s)) = 0 := by
        rw [List.countP_eq_zero]
        intro x hx
        have := hrest x hx
        simpa using le_trans (not_lt.1 h1) (le_of_lt this)
      simp [h1, hz]

theorem upper_bound_eq_countP (m : OMap K V) (e : K) (hm : m.Ordered) :
    upper_bound m e = m.countP (fun x => decide (x.1 ≤ e)) := by
  induction m with
  | nil => simp [upper_bound]
  | cons hd rest ih =>
    obtain ⟨k1, v1⟩ := hd
    have hrest : ∀ x ∈ rest, k1 < x.1 := fun x hx => (List.pairwise_cons.1 hm).1 x hx
    rw [upper_bound, List.countP_cons]
    by_cases h1 : e < k1
    · have hz : rest.countP (fun x => decide (x.1 ≤ e)) = 0 := by
        rw [List.countP_eq_zero]
        intro x hx
        have := hrest x hx
        simpa using lt_trans h1 this
      simp [h1, hz, not_le.2 h1]
    · simp [h1, ih (List.pairwise_cons.1 hm).2, not_lt.1 h1]

theorem countP_split (l : List (K × V)) (s e : K) (hse : s ≤ e) :
    l.countP (fun x => decide (x.1 ≤ e)) =
      l.countP (fun x => decide (x.1 < s)) +
        l.countP (fun x => decide (s ≤ x.1 ∧ x.1 ≤ e)) := by
  induction l with
  | nil => simp
  | cons hd rest ih =>
    rw [List.countP_cons, List.countP_cons, List.countP_cons, ih]
    by_cases h1 : hd.1 < s
    · have h2 : hd.1 ≤ e := le_trans (le_of_lt h1) hse
      simp [h1, h2, not_le.2 h1]
      omega
    · by_cases h2 : hd.1 ≤ e
      · simp [h1, h2, not_lt.1 h1]
        omega
      · simp [h1, h2]

theorem find_cons_of_lt (k1 : K) (v1 : V) (rest : OMap K V) (k : K) (h : k1 < k) :
    find ((k1, v1) :: rest) k = find rest k + 1 := by
  unfold find
  simp only [lower_bound, if_pos h, List.getElem?_cons_succ, List.length_cons]
  cases rest[lower_bound rest k]? with
  | none => rfl
  | some e => by_cases h2 : k < e.1 <;> simp [h2]

theorem find_ne_end_iff (m : OMap K V) (k : K) (hm : m.Ordered) :
    find m k ≠ m.length ↔ ∃ v, (k, v) ∈ m := by
  induction m with
  | nil => simp [find, lower_bound]
  | cons hd rest ih =>
    obtain ⟨k1, v1⟩ := hd
    have hrest : ∀ x ∈ rest, k1 < x.1 := fun x hx => (List.pairwise_cons.1 hm).1 x hx
    have ih := ih (List.pairwise_cons.1 hm).2
    by_cases h1 : k1 < k
    · rw [find_cons_of_lt k1 v1 rest k h1]
      simp only [List.length_cons, ne_eq, add_left_inj, List.mem_cons, Prod.mk.injEq]
      rw [← ne_eq, ih]
      constructor
      · rintro ⟨v, hv⟩; exact ⟨v, Or.inr hv⟩
      · rintro ⟨v, ⟨hk, _⟩ | hv⟩
        · exact absurd hk (ne_of_gt h1)
        · exact ⟨v, hv⟩
    · by_cases h2 : k < k1
      · have : find ((k1, v1) :: rest) k = ((k1, v1) :: rest).length := by
          simp [find, lower_bound, h1, h2]
        simp only [this, ne_eq, not_true_eq_false, false_iff, not_exists]
        intro v hv
        rcases List.mem_cons.1 hv with h | h
        · exact absurd (congrArg Prod.fst h) (ne_of_lt h2)
        · exact absurd (hrest _ h) (not_lt.2 (le_of_lt h2))
      · have hk : k1 = k := le_antisymm (not_lt.1 h2) (not_lt.1 h1)
        subst hk
        have : find ((k1, v1) :: rest) k1 = 0 := by
          simp [find, lower_bound]
        simp only [this, List.length_cons]
        exact ⟨fun _ => ⟨v1, List.mem_cons_self _ _⟩, fun _ => by omega⟩

end OMap

/-! ## The hash map -/

namespace UMap

theorem mem_entries_iff {K V : Type} (m : UMap K V) (e : K × V) :
    e ∈ m.entries ↔ ∃ (i : Nat) (b : List (K × V)), m.buckets[i]? = some b ∧ e ∈ b := by
  unfold entries
  rw [List.mem_flatten]
  constructor
  · rintro ⟨b, hb, he⟩
    obtain ⟨i, hi⟩ := List.mem_iff_getElem?.1 hb
    exact ⟨i, b, hi, he⟩
  · rintro ⟨i, b, hi, he⟩
    exact ⟨b, List.mem_iff_getElem?.2 ⟨i, hi⟩, he⟩

theorem key_unique {K V : Type} (hash : K → Nat) (m : UMap K V) (hm : m.WF hash) (a b : K × V)
    (ha : a ∈ m.entries) (hb : b ∈ m.entries) (hab : a.1 = b.1) : a = b :=
  List.inj_on_of_nodup_map hm.2.2 ha hb hab

theorem find_eq_some {K V : Type} [DecidableEq K] (hash : K → Nat) (m : UMap K V) (hm : m.WF hash) (k : K) (e : K × V) :
    find hash m k = some e ↔ e ∈ m.entries ∧ e.1 = k := by
  unfold find
  constructor
  · intro h
    have hmem := List.mem_of_find?_eq_some h
    have hk : e.1 = k := by simpa using List.find?_some h
    refine ⟨(mem_entries_iff m e).2 ⟨bucketIndex hash m k, _, ?_, hmem⟩, hk⟩
    rw [List.getD_eq_getElem?_getD] at hmem ⊢
    cases hb : m.buckets[bucketIndex hash m k]? with
    | none => rw [hb] at hmem; simp at hmem
    | some b => simp
  · rintro ⟨he, hk⟩
    obtain ⟨i, b, hi, heb⟩ := (mem_entries_iff m e).1 he
    have hidx : bucketIndex hash m k = i := by
      rw [← hk]; exact hm.2.1 i b hi e heb
    rw [List.getD_eq_getElem?_getD, hidx, hi]
    simp only [Option.getD_some]
    cases hf : b.find? (fun x => decide (x.1 = k)) with
    | none =>
      have := List.find?_eq_none.1 hf e heb
      simp [hk] at this
    | some x =>
      have hx : x ∈ b := List.mem_of_find?_eq_some hf
      have hxk : x.1 = k := by simpa using List.find?_some hf
      have hxe : x ∈ m.entries := (mem_entries_iff m x).2 ⟨i, b, hi, hx⟩
      rw [key_unique hash m hm x e hxe he (hxk.trans hk.symm)]

theorem find_eq_none {K V : Type} [DecidableEq K] (hash : K → Nat) (m : UMap K V) (hm : m.WF hash) (k : K) :
    find hash m k = none ↔ ∀ e ∈ m.entries, e.1 ≠ k := by
  constructor
  · intro h e he hk
    have := (find_eq_some hash m hm k e).2 ⟨he, hk⟩
    rw [h] at this
    cases this
  · intro h
    cases hf : find hash m k with
    | none => rfl
    | some e =>
      obtain ⟨he, hk⟩ := (find_eq_some hash m hm k e).1 hf
      exact absurd hk (h e he)

theorem flatten_modify_cons {K V : Type} (x : K × V) :
    ∀ (bs : List (List (K × V))) (i : Nat), i < bs.length →
      ((bs.modify (fun b => x :: b) i).flatten).Perm (x :: bs.flatten) := by
  intro bs
  induction bs with
  | nil => intro i hi; simp at hi
  | cons b bs ih =>
    intro i hi
    cases i with
    | zero => simp [List.modify, List.modifyHead]
    | succ i =>
      have h := ih i (by simpa using hi)
      simp only [List.modify_succ_cons, List.flatten_cons]
      exact (List.Perm.append_left b h).trans List.perm_middle

theorem flatten_modify_map {K V : Type} (f : K × V → K × V) :
    ∀ (bs : List (List (K × V))) (i : Nat),
      (∀ j b, bs[j]? = some b → j ≠ i → ∀ e ∈ b, f e = e) →
      (bs.modify (List.map f) i).flatten = bs.flatten.map f := by
  intro bs
  induction bs with
  | nil => intro i _; simp
  | cons b bs ih =>
    intro i h
    cases i with
    | zero =>
      have hfix : ∀ e ∈ bs.flatten, f e = e := by
        intro e he
        obtain ⟨c, hc, hec⟩ := List.mem_flatten.1 he
        obtain ⟨j, hj⟩ := List.mem_iff_getElem?.1 hc
        exact h (j + 1) c (by simpa using hj) (by omega) e hec
      have : bs.flatten.map f = bs.flatten := by
        conv_rhs => rw [← List.map_id bs.flatten]
        exact List.map_congr_left (fun e he => by simpa using hfix e he)
      simp [List.modify, List.modifyHead, this]
    | succ i =>
      have hb : b.map f = b := by
        conv_rhs => rw [← List.map_id b]
        exact List.map_congr_left (fun e he => by simpa using h 0 b (by simp) (by omega) e he)
      have := ih i (fun j c hj hne e he => h (j + 1) c (by simpa using hj) (by omega) e he)
      simp [List.modify_succ_cons, this, hb]

theorem place_spec {K V : Type} (hash : K → Nat) (m : UMap K V) (hm : m.WF hash) (k : K) (v : V)
    (hk : ∀ e ∈ m.entries, e.1 ≠ k) :
    (place hash m k v).WF hash ∧ (place hash m k v).entries.Perm ((k, v) :: m.entries) := by
  have hidx : bucketIndex hash m k < m.buckets.length := Nat.mod_lt _ hm.1
  have hperm : (place hash m k v).entries.Perm ((k, v) :: m.entries) :=
    flatten_modify_cons (k, v) m.buckets _ hidx
  refine ⟨⟨?_, ?_, ?_⟩, hperm⟩
  · simpa [place] using hm.1
  · intro i b hb e he
    simp only [place, List.length_modify, List.getElem?_modify] at hb ⊢
    cases hbi : m.buckets[i]? with
    | none => rw [hbi] at hb; simp at hb
    | some b0 =>
      rw [hbi] at hb
      simp only [Option.map_eq_map, Option.map_some', Option.some.injEq] at hb
      by_cases hi : bucketIndex hash m k = i
      · rw [if_pos hi] at hb
        subst hb
        rcases List.mem_cons.1 he with rfl | he
        · exact hi
        · exact hm.2.1 i b0 hbi e he
      · rw [if_neg hi] at hb
        subst hb
        exact hm.2.1 i b0 hbi e he
  · rw [(hperm.map Prod.fst).nodup_iff]
    simp only [List.map_cons, List.nodup_cons, List.mem_map, not_exists, not_and]
    exact ⟨fun e he => hk e he, hm.2.2⟩

theorem foldl_place_spec {K V : Type} (hash : K → Nat) :
    ∀ (es : List (K × V)) (acc : UMap K V), acc.WF hash →
      ((es ++ acc.entries).map Prod.fst).Nodup →
      (es.foldl (fun a e => place hash a e.1 e.2) acc).WF hash ∧
        (es.foldl (fun a e => place hash a e.1 e.2) acc).entries.Perm (es ++ acc.entries) := by
  intro es
  induction es with
  | nil => intro acc hacc _; exact ⟨hacc, List.Perm.refl _⟩
  | cons e es ih =>
    intro acc hacc hnd
    have hfresh : ∀ x ∈ acc.entries, x.1 ≠ e.1 := by
      intro x hx hxe
      simp only [List.cons_append, List.map_cons, List.nodup_cons, List.map_append,
        List.mem_append, List.mem_map, not_or, not_exists, not_and] at hnd
      exact hnd.1.2 x hx hxe
    obtain ⟨hwf, hperm⟩ := place_spec hash acc hacc e.1 e.2 hfresh
    have hperm2 : (es ++ (place hash acc e.1 e.2).entries).Perm (e :: es ++ acc.entries) :=
      (List.Perm.append_left es hperm).trans List.perm_middle
    have hnd2 : ((es ++ (place hash acc e.1 e.2).entries).map Prod.fst).Nodup :=
      ((hperm2.map Prod.fst).nodup_iff).2 (by simpa using hnd)
    obtain ⟨h1, h2⟩ := ih (place hash acc e.1 e.2) hwf hnd2
    exact ⟨h1, h2.trans hperm2⟩

theorem rehash_spec {K V : Type} (hash : K → Nat) (m : UMap K V) (hm : m.WF hash) (n : Nat) (hn : 0 < n) :
    (rehash hash m n).WF hash ∧ (rehash hash m n).entries.Perm m.entries := by
  have hnil : (⟨List.replicate n []⟩ : UMap K V).entries = [] := by
    simp [entries, List.flatten_eq_nil_iff]
  have hwf : (⟨List.replicate n []⟩ : UMap K V).WF hash := by
    refine ⟨by simpa using hn, ?_, by rw [hnil]; simp⟩
    intro i b hb e he
    rw [List.getElem?_replicate] at hb
    split at hb
    · cases hb; cases he
    · cases hb
  have := foldl_place_spec hash m.entries ⟨List.replicate n []⟩ hwf
    (by rw [hnil]; simpa using hm.2.2)
  rw [hnil, List.append_nil] at this
  exact this

theorem empty_wf {K V : Type} (hash : K → Nat) : (empty : UMap K V).WF hash := by
  refine ⟨by simp [empty], ?_, by simp [empty, entries]⟩
  intro i b hb e he
  cases i with
  | zero => simp [empty] at hb; subst hb; cases he
  | succ i => simp [empty] at hb

theorem assign_spec {K V : Type} [DecidableEq K] (hash : K → Nat) (m : UMap K V) (hm : m.WF hash) (k : K) (v : V) :
    (assign hash m k v).WF hash ∧
      ∀ e, e ∈ (assign hash m k v).entries ↔ e = (k, v) ∨ (e.1 ≠ k ∧ e ∈ m.entries) := by
  unfold assign
  cases hf : find hash m k with
  | some e0 =>
    obtain ⟨he0, hk0⟩ := (find_eq_some hash m hm k e0).1 hf
    simp only
    have hfix : ∀ j b, m.buckets[j]? = some b → j ≠ bucketIndex hash m k →
        ∀ e ∈ b, (fun e : K × V => if e.1 = k then (e.1, v) else e) e = e := by
      intro j b hj hne e he
      have hidx := hm.2.1 j b hj e he
      by_cases hek : e.1 = k
      · exact absurd (by rw [← hidx, hek]; rfl) hne
      · simp [hek]
    have hent : (⟨m.buckets.modify
          (fun b => b.map (fun e => if e.1 = k then (e.1, v) else e))
          (bucketIndex hash m k)⟩ : UMap K V).entries =
        m.entries.map (fun e => if e.1 = k then (e.1, v) else e) :=
      flatten_modify_map _ m.buckets _ hfix
    have hkeys : ∀ (l : List (K × V)),
        (l.map (fun e => if e.1 = k then (e.1, v) else e)).map Prod.fst = l.map Prod.fst := by
      intro l
      rw [List.map_map]
      apply List.map_congr_left
      intro e _
      by_cases hek : e.1 = k <;> simp [hek]
    refine ⟨⟨by simpa using hm.1, ?_, by rw [hent, hkeys]; exact hm.2.2⟩, ?_⟩
    · intro i b hb e he
      simp only [List.length_modify, List.getElem?_modify] at hb ⊢
      cases hbi : m.buckets[i]? with
      | none => rw [hbi] at hb; simp at hb
      | some b0 =>
        rw [hbi] at hb
        simp only [Option.map_eq_map, Option.map_some', Option.some.injEq] at hb
        by_cases hi : bucketIndex hash m k = i
        · rw [if_pos hi] at hb
          subst hb
          obtain ⟨x, hx, hxe⟩ := List.mem_map.1 he
          have := hm.2.1 i b0 hbi x hx
          by_cases hxk : x.1 = k
          · simp [hxk] at hxe; rw [← hxe]; simpa [hxk] using this
          · simp [hxk] at hxe; rw [← hxe]; exact this
        · rw [if_neg hi] at hb
          subst hb
          exact hm.2.1 i b0 hbi e he
    · intro e
      rw [hent, List.mem_map]
      constructor
      · rintro ⟨x, hx, hxe⟩
        by_cases hxk : x.1 = k
        · left; rw [← hxe]; simp [hxk]
        · right; simp [hxk] at hxe; rw [← hxe]; exact ⟨hxk, hx⟩
      · rintro (h | ⟨hne, he⟩)
        · exact ⟨e0, he0, by simp [hk0, h]⟩
        · exact ⟨e, he, by simp [hne]⟩
  | none =>
    have hfresh := (find_eq_none hash m hm k).1 hf
    simp only
    have key : ∀ m1 : UMap K V, m1.WF hash → m1.entries.Perm m.entries →
        (place hash m1 k v).WF hash ∧
          ∀ e, e ∈ (place hash m1 k v).entries ↔ e = (k, v) ∨ (e.1 ≠ k ∧ e ∈ m.entries) := by
      intro m1 h1 hp
      obtain ⟨hwf, hperm⟩ := place_spec hash m1 h1 k v
        (fun e he => hfresh e (hp.mem_iff.1 he))
      refine ⟨hwf, fun e => ?_⟩
      rw [hperm.mem_iff, List.mem_cons, hp.mem_iff]
      constructor
      · rintro (h | h)
        · exact Or.inl h
        · exact Or.inr ⟨hfresh e h, h⟩
      · rintro (h | ⟨_, h⟩)
        · exact Or.inl h
        · exact Or.inr h
    split
    · obtain ⟨h1, h2⟩ := rehash_spec hash m hm (2 * m.buckets.length + 1) (by omega)
      exact key _ h1 h2
    · exact key m hm (List.Perm.refl _)

end UMap

/-! ## Loading a container -/

theorem isLastIndex_snoc (done : List Int) (x t v : Int) :
    IsLastIndex (done ++ [x]) t v ↔
      (t = x ∧ v = (done.length : Int)) ∨ (t ≠ x ∧ IsLastIndex done t v) := by
  constructor
  · rintro ⟨i, hv, hi, hlast⟩
    rcases Nat.lt_trichotomy i done.length with hlt | heq | hgt
    · right
      rw [List.getElem?_append_left hlt] at hi
      have hx := hlast done.length hlt
      rw [List.getElem?_append_right (le_refl _)] at hx
      refine ⟨fun h => hx (by simp [h]), i, hv, hi, ?_⟩
      intro j hj
      by_cases hjl : j < done.length
      · have := hlast j hj
        rwa [List.getElem?_append_left hjl] at this
      · rw [List.getElem?_eq_none (by omega)]
        simp
    · left
      subst heq
      rw [List.getElem?_append_right (le_refl _)] at hi
      simp at hi
      exact ⟨hi.symm, hv⟩
    · rw [List.getElem?_eq_none (by simp; omega)] at hi
      cases hi
  · rintro (⟨rfl, hv⟩ | ⟨hne, i, hv, hi, hlast⟩)
    · refine ⟨done.length, hv, by rw [List.getElem?_append_right (le_refl _)]; simp, ?_⟩
      intro j hj
      rw [List.getElem?_eq_none (by simp; omega)]
      simp
    · have hlt : i < done.length := by
        by_contra h
        rw [List.getElem?_eq_none (by omega)] at hi
        cases hi
      refine ⟨i, hv, by rw [List.getElem?_append_left hlt]; exact hi, ?_⟩
      intro j hj
      rcases Nat.lt_trichotomy j done.length with hjl | heq | hgt
      · rw [List.getElem?_append_left hjl]; exact hlast j hj
      · subst heq
        rw [List.getElem?_append_right (le_refl _)]
        simpa using fun h => hne h.symm
      · rw [List.getElem?_eq_none (by simp; omega)]
        simp

theorem isLastIndex_key_iff (timestamps : List Int) (t : Int) :
    (∃ v, IsLastIndex timestamps t v) ↔ t ∈ timestamps := by
  induction timestamps using List.reverseRecOn with
  | nil => simp [IsLastIndex]
  | append_singleton done x ih =>
    simp only [isLastIndex_snoc, List.mem_append, List.mem_singleton]
    constructor
    · rintro ⟨v, ⟨h, _⟩ | ⟨_, h⟩⟩
      · exact Or.inr h
      · exact Or.inl (ih.1 ⟨v, h⟩)
    · intro h
      by_cases hx : t = x
      · exact ⟨_, Or.inl ⟨hx, rfl⟩⟩
      · rcases h with h | h
        · obtain ⟨v, hv⟩ := ih.2 h
          exact ⟨v, Or.inr ⟨hx, hv⟩⟩
        · exact absurd h hx

theorem loadLoop_spec {M : Type} (ents : M → List (Int × Int)) (assign : M → Int → Int → M)
    (Inv : M → Prop)
    (hstep : ∀ m k v, Inv m → Inv (assign m k v) ∧
      ∀ e, e ∈ ents (assign m k v) ↔ e = (k, v) ∨ (e.1 ≠ k ∧ e ∈ ents m)) :
    ∀ (rest done : List Int) (m : M), Inv m →
      (∀ t v, (t, v) ∈ ents m ↔ IsLastIndex done t v) →
      Inv (loadLoop assign rest (done.length : Int) m) ∧
        ∀ t v, (t, v) ∈ ents (loadLoop assign rest (done.length : Int) m) ↔
          IsLastIndex (done ++ rest) t v := by
  intro rest
  induction rest with
  | nil => intro done m hm h; simpa [loadLoop] using ⟨hm, h⟩
  | cons x rest ih =>
    intro done m hm h
    obtain ⟨hinv, hmem⟩ := hstep m x (done.length : Int) hm
    have := ih (done ++ [x]) (assign m x (done.length : Int)) hinv (by
      intro t v
      rw [hmem, isLastIndex_snoc, ← h]
      simp only [Prod.mk.injEq, ne_eq])
    simpa [loadLoop] using this

theorem foldl_assign_keys {M K : Type} (ents : M → List (K × Bool)) (assign : M → K → Bool → M)
    (Inv : M → Prop)
    (hstep : ∀ m k v, Inv m → Inv (assign m k v) ∧
      ∀ e, e ∈ ents (assign m k v) ↔ e = (k, v) ∨ (e.1 ≠ k ∧ e ∈ ents m)) :
    ∀ (words : List K) (m : M), Inv m →
      Inv (words.foldl (fun m w => assign m w true) m) ∧
        ∀ k, (∃ v, (k, v) ∈ ents (words.foldl (fun m w => assign m w true) m)) ↔
          k ∈ words ∨ ∃ v, (k, v) ∈ ents m := by
  intro words
  induction words with
  | nil => intro m hm; simpa using hm
  | cons w words ih =>
    intro m hm
    obtain ⟨hinv, hmem⟩ := hstep m w true hm
    obtain ⟨h1, h2⟩ := ih (assign m w true) hinv
    refine ⟨by simpa using h1, fun k => ?_⟩
    simp only [List.foldl_cons, List.mem_cons]
    rw [h2]
    constructor
    · rintro (h | ⟨v, hv⟩)
      · exact Or.inl (Or.inr h)
      · rcases (hmem (k, v)).1 hv with h | ⟨_, h⟩
        · exact Or.inl (Or.inl (congrArg Prod.fst h))
        · exact Or.inr ⟨v, h⟩
    · rintro ((h | h) | ⟨v, hv⟩)
      · exact Or.inr ⟨true, (hmem (k, true)).2 (Or.inl (by rw [h]))⟩
      · exact Or.inl h
      · by_cases hk : k = w
        · exact Or.inr ⟨true, (hmem (k, true)).2 (Or.inl (by rw [hk]))⟩
        · exact Or.inr ⟨v, (hmem (k, v)).2 (Or.inr ⟨hk, hv⟩)⟩

theorem foldl_count {α : Type} (p : α → Prop) [DecidablePred p] (l : List α) (c : Nat) :
    l.foldl (fun n x => if p x then n + 1 else n) c = c + l.countP (fun x => decide (p x)) := by
  induction l generalizing c with
  | nil => simp
  | cons x l ih =>
    rw [List.foldl_cons, ih, List.countP_cons]
    by_cases hx : p x
    · simp [hx]; omega
    · simp [hx]

/-! ## The two reservation containers hold the same association -/

theorem omap_step {K V : Type} [LinearOrder K] (m : OMap K V) (k : K) (v : V)
    (hm : m.Ordered) :
    (OMap.assign m k v).Ordered ∧
      ∀ e, e ∈ (fun x : OMap K V => x) (OMap.assign m k v) ↔
        e = (k, v) ∨ (e.1 ≠ k ∧ e ∈ (fun x : OMap K V => x) m) :=
  ⟨OMap.assign_ordered m k v hm, OMap.assign_mem m k v hm⟩

theorem loadReservationsMap_spec (timestamps : List Int) :
    (loadReservationsMap timestamps).Ordered ∧
      ∀ t v, (t, v) ∈ loadReservationsMap timestamps ↔ IsLastIndex timestamps t v := by
  have := loadLoop_spec (fun x : OMap Int Int => x) OMap.assign OMap.Ordered omap_step
    timestamps [] [] List.Pairwise.nil (by simp [IsLastIndex])
  simpa [loadReservationsMap] using this

theorem loadReservationsUnorderedMap_spec (hash : Int → Nat) (timestamps : List Int) :
    (loadReservationsUnorderedMap hash timestamps).WF hash ∧
      ∀ t v, (t, v) ∈ (loadReservationsUnorderedMap hash timestamps).entries ↔
        IsLastIndex timestamps t v := by
  have := loadLoop_spec UMap.entries (UMap.assign hash) (UMap.WF hash)
    (fun m k v hm => UMap.assign_spec hash m hm k v)
    timestamps [] UMap.empty (UMap.empty_wf hash) (by simp [IsLastIndex, UMap.empty, UMap.entries])
  simpa [loadReservationsUnorderedMap] using this

theorem ordered_keys_nodup {K V : Type} [LinearOrder K] (m : OMap K V) (hm : m.Ordered) :
    (m.map Prod.fst).Nodup := by
  rw [List.Nodup, List.pairwise_map]
  exact hm.imp (fun h => ne_of_lt h)

theorem reservations_perm (hash : Int → Nat) (timestamps : List Int) :
    (loadReservationsMap timestamps).Perm
      (loadReservationsUnorderedMap hash timestamps).entries := by
  obtain ⟨ho, hmo⟩ := loadReservationsMap_spec timestamps
  obtain ⟨hu, hmu⟩ := loadReservationsUnorderedMap_spec hash timestamps
  rw [List.perm_ext_iff_of_nodup (ordered_keys_nodup _ ho).of_map hu.2.2.of_map]
  rintro ⟨t, v⟩
  rw [hmo, hmu]

theorem reservations_keys_perm (timestamps : List Int) :
    ((loadReservationsMap timestamps).map Prod.fst).Perm timestamps.dedup := by
  obtain ⟨ho, hmo⟩ := loadReservationsMap_spec timestamps
  rw [List.perm_ext_iff_of_nodup (ordered_keys_nodup _ ho) (List.nodup_dedup _)]
  intro t
  rw [List.mem_dedup, ← isLastIndex_key_iff timestamps t, List.mem_map]
  constructor
  · rintro ⟨⟨t1, v⟩, h, rfl⟩
    exact ⟨v, (hmo t1 v).1 h⟩
  · rintro ⟨v, h⟩
    exact ⟨(t, v), (hmo t v).2 h, rfl⟩

/-! ## Range search -/

theorem rangeLoop_ok (size : Nat) :
    ∀ (fuel it it_end total : Nat), it ≤ it_end → it_end ≤ size → it_end - it < fuel →
      rangeLoop size fuel it it_end total = .ok (total + (it_end - it)) := by
  intro fuel
  induction fuel with
  | zero => intro it it_end total _ _ h; omega
  | succ fuel ih =>
    intro it it_end total h1 h2 h3
    rw [rangeLoop]
    by_cases heq : it = it_end
    · rw [if_pos heq]; subst heq; simp
    · rw [if_neg heq, if_neg (by omega), ih (it + 1) it_end (total + 1) (by omega) h2 (by omega)]
      congr 1
      omega

theorem countP_keys {V : Type} (p : Int → Bool) (l : List (Int × V)) :
    l.countP (fun x => p x.1) = (l.map Prod.fst).countP p := by
  rw [List.countP_map]
  rfl

theorem rangeSearchOne_count (m : OMap Int Int) (hm : m.Ordered) (start stop : Int)
    (hse : start ≤ stop) (total : Nat) :
    rangeSearchOne m (start, stop) total =
      .ok (total + m.countP (fun x => decide (start ≤ x.1 ∧ x.1 ≤ stop))) := by
  have h1 := OMap.lower_bound_le_upper_bound m start stop hse
  have h2 := OMap.upper_bound_le_length m stop
  rw [rangeSearchOne, rangeLoop_ok _ _ _ _ _ h1 h2 (by omega)]
  have h3 := OMap.countP_split m start stop hse
  rw [← OMap.upper_bound_eq_countP m stop hm, ← OMap.lower_bound_eq_countP m start hm] at h3
  congr 2
  omega

theorem scanOne_count (um : UMap Int Int) (start stop : Int) (total : Nat) :
    scanOne um (start, stop) total =
      total + um.entries.countP (fun x => decide (start ≤ x.1 ∧ x.1 ≤ stop)) := by
  rw [scanOne]
  exact foldl_count (fun e : Int × Int => e.1 ≥ start ∧ e.1 ≤ stop) um.entries total

theorem copyOut_eq (entries : List (Int × Int)) : copyOut entries = entries := by
  have : ∀ (l acc : List (Int × Int)),
      l.foldl (fun sortedReservations e => sortedReservations ++ [(e.1, e.2)]) acc = acc ++ l := by
    intro l
    induction l with
    | nil => simp
    | cons x l ih => intro acc; simp [ih]
  simpa [copyOut] using this entries []

/-! ## Sorting -/

theorem ordered_sorted (m : OMap Int Int) (hm : m.Ordered) : m.Sorted pairNotAfter :=
  hm.imp (fun {a b} h => by simp only [pairNotAfter, pairLess]; omega)

/-! ## The dictionary containers -/

theorem loadDictionaryMap_spec (dictionaryWords : List Word) :
    (loadDictionaryMap dictionaryWords).Ordered ∧
      ∀ w, (∃ v, (w, v) ∈ loadDictionaryMap dictionaryWords) ↔ w ∈ dictionaryWords := by
  have := foldl_assign_keys (fun x : OMap Word Bool => x) OMap.assign OMap.Ordered omap_step
    dictionaryWords [] List.Pairwise.nil
  simpa [loadDictionaryMap] using this

theorem loadDictionaryUnorderedMap_spec (hash : Word → Nat) (dictionaryWords : List Word) :
    (loadDictionaryUnorderedMap hash dictionaryWords).WF hash ∧
      ∀ w, (∃ v, (w, v) ∈ (loadDictionaryUnorderedMap hash dictionaryWords).entries) ↔
        w ∈ dictionaryWords := by
  have := foldl_assign_keys UMap.entries (UMap.assign hash) (UMap.WF hash)
    (fun m k v hm => UMap.assign_spec hash m hm k v)
    dictionaryWords UMap.empty (UMap.empty_wf hash)
  simpa [loadDictionaryUnorderedMap, UMap.empty, UMap.entries] using this

theorem searchMap_eq (dictionaryWords wordsToSearch : List Word) :
    searchMap (loadDictionaryMap dictionaryWords) wordsToSearch =
      wordsToSearch.countP (fun w => decide (w ∈ dictionaryWords)) := by
  obtain ⟨ho, hk⟩ := loadDictionaryMap_spec dictionaryWords
  rw [searchMap, foldl_count (fun w : Word => OMap.find (loadDictionaryMap dictionaryWords) w ≠
    (loadDictionaryMap dictionaryWords).length), Nat.zero_add]
  apply List.countP_congr
  intro w _
  simp only [decide_eq_true_eq]
  rw [OMap.find_ne_end_iff _ w ho, hk]

theorem searchUnorderedMap_eq (hash : Word → Nat) (dictionaryWords wordsToSearch : List Word) :
    searchUnorderedMap hash (loadDictionaryUnorderedMap hash dictionaryWords) wordsToSearch =
      wordsToSearch.countP (fun w => decide (w ∈ dictionaryWords)) := by
  obtain ⟨hu, hk⟩ := loadDictionaryUnorderedMap_spec hash dictionaryWords
  rw [searchUnorderedMap, foldl_count (fun w : Word =>
    (UMap.find hash (loadDictionaryUnorderedMap hash dictionaryWords) w).isSome = true),
    Nat.zero_add]
  apply List.countP_congr
  intro w _
  simp only [decide_eq_true_eq]
  rw [← hk, Option.isSome_iff_exists]
  constructor
  · rintro ⟨e, he⟩
    obtain ⟨h1, h2⟩ := (UMap.find_eq_some hash _ hu w e).1 he
    exact ⟨e.2, by rw [← h2]; exact h1⟩
  · rintro ⟨v, hv⟩
    exact ⟨(w, v), (UMap.find_eq_some hash _ hu w (w, v)).2 ⟨hv, rfl⟩⟩

/-! ## Generated ranges -/

theorem pushRanges_ok {G : Type} (rng : Rng G) (hr : rng.DrawsWithin 0 (86400 * 365)) :
    ∀ (n : Nat) (gen : G) (acc : List (Int × Int)), ∃ rs g,
      pushRanges rng n gen acc = .ok (acc ++ rs, g) ∧ rs.length = n ∧
        ∀ r ∈ rs, 0 ≤ r.1 ∧ r.1 ≤ 86400 * 365 ∧ 0 ≤ r.2 - r.1 ∧ r.2 - r.1 < 86400 := by
  intro n
  induction n with
  | zero => intro gen acc; exact ⟨[], gen, by simp [pushRanges], rfl, by simp⟩
  | succ n ih =>
    intro gen acc
    obtain ⟨hs0, hs1⟩ := hr gen
    obtain ⟨hd0, hd1⟩ := hr (rng.uniform 0 (86400 * 365) gen).2
    have hmod : (rng.uniform 0 (86400 * 365) (rng.uniform 0 (86400 * 365) gen).2).1.tmod 86400 =
        (rng.uniform 0 (86400 * 365) (rng.uniform 0 (86400 * 365) gen).2).1 % 86400 :=
      Int.tmod_eq_emod hd0 (by omega)
    have hadd : addTimeT (rng.uniform 0 (86400 * 365) gen).1
        ((rng.uniform 0 (86400 * 365) (rng.uniform 0 (86400 * 365) gen).2).1.tmod 86400) =
        .ok ((rng.uniform 0 (86400 * 365) gen).1 +
          (rng.uniform 0 (86400 * 365) (rng.uniform 0 (86400 * 365) gen).2).1 % 86400) := by
      rw [hmod, addTimeT, if_pos]
      simp only [TIME_T_MAX]
      omega
    obtain ⟨rs, g, hrs, hlen, hmem⟩ :=
      ih (rng.uniform 0 (86400 * 365) (rng.uniform 0 (86400 * 365) gen).2).2
        (acc ++ [((rng.uniform 0 (86400 * 365) gen).1, (rng.uniform 0 (86400 * 365) gen).1 +
          (rng.uniform 0 (86400 * 365) (rng.uniform 0 (86400 * 365) gen).2).1 % 86400)])
    refine ⟨((rng.uniform 0 (86400 * 365) gen).1, (rng.uniform 0 (86400 * 365) gen).1 +
          (rng.uniform 0 (86400 * 365) (rng.uniform 0 (86400 * 365) gen).2).1 % 86400) :: rs,
      g, ?_, by simp [hlen], ?_⟩
    · rw [pushRanges]
      simp only [hadd]
      simpa using hrs
    · intro r hr1
      rcases List.mem_cons.1 hr1 with rfl | hr1
      · simp only
        omega
      · exact hmem r hr1

theorem lcg_drawsWithin (a b : Int) (h : a ≤ b) : lcg.DrawsWithin a b := by
  intro g
  have hpos : (0 : Int) < b - a + 1 := by omega
  have h1 := Int.emod_nonneg ((g / 65536 : Nat) : Int) (ne_of_gt hpos)
  have h2 := Int.emod_lt_of_pos ((g / 65536 : Nat) : Int) hpos
  simp only [lcg]
  omega

/-! ## Scenario 1 as a whole -/

theorem testSpellCheckerScenario_ok {G : Type} (rng : Rng G) (hash : Word → Nat)
    (hr : rng.DrawsWithin 0 25) (numWords numSearches : Int)
    (hw : 0 < numWords ∨ (numSearches.tdiv 2).toNat = 0) :
    ∃ d, buildSearchData rng numWords numSearches = .ok d ∧
      testSpellCheckerScenario rng hash numWords numSearches =
        .ok (d.wordsToSearch.countP (fun w => decide (w ∈ d.dictionaryWords)),
             d.wordsToSearch.countP (fun w => decide (w ∈ d.dictionaryWords))) ∧
      (numSearches.tdiv 2).toNat ≤
        d.wordsToSearch.countP (fun w => decide (w ∈ d.dictionaryWords)) := by
  obtain ⟨dict, g1, first, fresh, g2, _, _, hb, _, hfl, _, hget, _, _⟩ :=
    buildSearchData_ok rng hr numWords numSearches hw
  refine ⟨_, hb, ?_, ?_⟩
  · rw [testSpellCheckerScenario, hb]
    simp only
    rw [searchMap_eq, searchUnorderedMap_eq]
  · simp only [List.countP_append]
    have hall : first.countP (fun w => decide (w ∈ dict)) = first.length := by
      rw [List.countP_eq_length]
      intro w hw1
      obtain ⟨j, hj, rfl⟩ := List.mem_iff_getElem.1 hw1
      obtain ⟨w2, h1, h2⟩ := hget j (by omega)
      rw [List.getElem?_eq_getElem hj] at h1
      cases h1
      simpa using List.getElem?_mem h2
    omega

/-! ## Range search on both containers -/

theorem range_one_agree (hash : Int → Nat) (timestamps : List Int) (start stop : Int)
    (hse : start ≤ stop) (total : Nat) :
    rangeSearchOne (loadReservationsMap timestamps) (start, stop) total =
        .ok (total + timestamps.dedup.countP (fun t => decide (start ≤ t ∧ t ≤ stop))) ∧
      scanOne (loadReservationsUnorderedMap hash timestamps) (start, stop) total =
        total + timestamps.dedup.countP (fun t => decide (start ≤ t ∧ t ≤ stop)) := by
  have hkeys : (loadReservationsMap timestamps).countP
        (fun x => decide (start ≤ x.1 ∧ x.1 ≤ stop)) =
      timestamps.dedup.countP (fun t => decide (start ≤ t ∧ t ≤ stop)) := by
    rw [countP_keys (fun t => decide (start ≤ t ∧ t ≤ stop))]
    exact (reservations_keys_perm timestamps).countP_eq _
  constructor
  · rw [rangeSearchOne_count _ (loadReservationsMap_spec timestamps).1 start stop hse, hkeys]
  · rw [scanOne_count, ← (reservations_perm hash timestamps).countP_eq, hkeys]

theorem range_totals_agree (hash : Int → Nat) (timestamps : List Int) :
    ∀ (ranges : List (Int × Int)) (total : Nat), (∀ r ∈ ranges, r.1 ≤ r.2) →
      rangeSearchMap (loadReservationsMap timestamps) ranges total =
        .ok (rangeSearchUnorderedMap (loadReservationsUnorderedMap hash timestamps)
          ranges total) := by
  intro ranges
  induction ranges with
  | nil => intro total _; rfl
  | cons r ranges ih =>
    intro total h
    obtain ⟨h1, h2⟩ := range_one_agree hash timestamps r.1 r.2
      (h r (List.mem_cons_self _ _)) total
    rw [rangeSearchMap, h1]
    simp only [rangeSearchUnorderedMap, List.foldl_cons]
    rw [h2]
    exact ih _ (fun x hx => h x (List.mem_cons_of_mem _ hx))

/-! ## Scenario 2 as a whole -/

theorem testTimeReservationScenario_ok {G : Type} (rng : Rng G) (hash : Int → Nat)
    (hr : rng.DrawsWithin 0 (86400 * 365)) (numReservations numRanges : Int) :
    ∃ r, testTimeReservationScenario rng hash numReservations numRanges = .ok r ∧
      r.foundMap = r.foundUnorderedMap ∧ r.sortedMap = r.sortedUnorderedMap := by
  obtain ⟨rs, g, hrs, _, hmem⟩ := pushRanges_ok rng hr numRanges.toNat
    (pushTimestamps rng numReservations.toNat (rng.seed 42) []).2 []
  have hle : ∀ r ∈ rs, r.1 ≤ r.2 := fun r h => by have := hmem r h; omega
  have htot := range_totals_agree hash
    (pushTimestamps rng numReservations.toNat (rng.seed 42) []).1 rs 0 hle
  have ho := (loadReservationsMap_spec
    (pushTimestamps rng numReservations.toNat (rng.seed 42) []).1).1
  refine ⟨⟨rangeSearchUnorderedMap (loadReservationsUnorderedMap hash
      (pushTimestamps rng numReservations.toNat (rng.seed 42) []).1) rs 0,
    copyOut (loadReservationsMap (pushTimestamps rng numReservations.toNat (rng.seed 42) []).1),
    rangeSearchUnorderedMap (loadReservationsUnorderedMap hash
      (pushTimestamps rng numReservations.toNat (rng.seed 42) []).1) rs 0,
    stdSort (copyOut (loadReservationsUnorderedMap hash
      (pushTimestamps rng numReservations.toNat (rng.seed 42) []).1).entries)⟩, ?_, rfl, ?_⟩
  · rw [testTimeReservationScenario]
    simp only [hrs, List.nil_append, htot]
  · simp only
    rw [copyOut_eq, copyOut_eq]
    apply List.eq_of_perm_of_sorted (r := pairNotAfter) _ (ordered_sorted _ ho)
      (List.sorted_insertionSort pairNotAfter _)
    exact (reservations_perm hash _).trans (List.perm_insertionSort pairNotAfter _).symm

/-! ## The claims -/

/-- Claim C1: for every list of timestamps and every range with `start ≤ stop`, the
ordered map's walk from `lower_bound(start)` to `upper_bound(stop)` and the hash map's
full scan both add to `totalReservationsFound` the number of distinct timestamps in
`[start, stop]`; hence over any list of such ranges the two totals are equal. -/
theorem range_search_counts_agree (hash : Int → Nat) (timestamps : List Int)
    (start stop : Int) (hse : start ≤ stop)
    (ranges : List (Int × Int)) (hranges : ∀ r ∈ ranges, r.1 ≤ r.2) (total : Nat) :
    rangeSearchOne (loadReservationsMap timestamps) (start, stop) total =
        .ok (total + timestamps.dedup.countP (fun t => decide (start ≤ t ∧ t ≤ stop))) ∧
      scanOne (loadReservationsUnorderedMap hash timestamps) (start, stop) total =
        total + timestamps.dedup.countP (fun t => decide (start ≤ t ∧ t ≤ stop)) ∧
      timestamps.dedup.countP (fun t => decide (start ≤ t ∧ t ≤ stop)) =
        (loadReservationsMap timestamps).countP
          (fun e => decide (start ≤ e.1 ∧ e.1 ≤ stop)) ∧
      rangeSearchMap (loadReservationsMap timestamps) ranges total =
        .ok (rangeSearchUnorderedMap (loadReservationsUnorderedMap hash timestamps)
          ranges total) := by
  obtain ⟨h1, h2⟩ := range_one_agree hash timestamps start stop hse total
  refine ⟨h1, h2, ?_, range_totals_agree hash timestamps ranges total hranges⟩
  rw [countP_keys (fun t => decide (start ≤ t ∧ t ≤ stop))]
  exact ((reservations_keys_perm timestamps).countP_eq _).symm

theorem range_search_counts_agree_witness :
    (3 : Int) ≤ 5 ∧ (∀ r ∈ [((3 : Int), (5 : Int)), (0, 100), (6, 6)], r.1 ≤ r.2) ∧
      rangeSearchOne (loadReservationsMap [5, 3, 5, 9, 1, 3]) (3, 5) 0 =
        .ok (0 + [(5 : Int), 3, 5, 9, 1, 3].dedup.countP (fun t => decide (3 ≤ t ∧ t ≤ 5))) ∧
      rangeSearchMap (loadReservationsMap [5, 3, 5, 9, 1, 3]) [(3, 5), (0, 100), (6, 6)] 0 =
        .ok (rangeSearchUnorderedMap
          (loadReservationsUnorderedMap (fun t => t.toNat) [5, 3, 5, 9, 1, 3])
          [(3, 5), (0, 100), (6, 6)] 0) :=
  ⟨by decide, by decide,
    (range_search_counts_agree (fun t => t.toNat) [5, 3, 5, 9, 1, 3] 3 5 (by decide)
      [(3, 5), (0, 100), (6, 6)] (by decide) 0).1,
    (range_search_counts_agree (fun t => t.toNat) [5, 3, 5, 9, 1, 3] 3 5 (by decide)
      [(3, 5), (0, 100), (6, 6)] (by decide) 0).2.2.2⟩

/-- Claim C2: for every list of timestamps, the pairs copied out of the ordered map by
plain iteration are non-decreasing by key, and they are, pair for pair, the result of
copying the hash map into a vector and sorting it with `std::sort`; indeed they are
the only arrangement of that vector that is sorted by `operator<`, whatever algorithm
`std::sort` runs. -/
theorem ordered_traversal_is_sorted_copy (hash : Int → Nat) (timestamps : List Int) :
    (copyOut (loadReservationsMap timestamps)).Pairwise (fun a b => a.1 ≤ b.1) ∧
      copyOut (loadReservationsMap timestamps) =
        stdSort (copyOut (loadReservationsUnorderedMap hash timestamps).entries) ∧
      ∀ v : List (Int × Int),
        v.Perm (copyOut (loadReservationsUnorderedMap hash timestamps).entries) →
        v.Pairwise pairNotAfter → copyOut (loadReservationsMap timestamps) = v := by
  have ho := (loadReservationsMap_spec timestamps).1
  rw [copyOut_eq, copyOut_eq]
  refine ⟨ho.imp (fun h => le_of_lt h), ?_, ?_⟩
  · apply List.eq_of_perm_of_sorted (r := pairNotAfter) _ (ordered_sorted _ ho)
      (List.sorted_insertionSort pairNotAfter _)
    exact (reservations_perm hash timestamps).trans
      (List.perm_insertionSort pairNotAfter _).symm
  · intro v hperm hsorted
    exact List.eq_of_perm_of_sorted (r := pairNotAfter)
      ((reservations_perm hash timestamps).trans hperm.symm) (ordered_sorted _ ho) hsorted

theorem ordered_traversal_is_sorted_copy_witness :
    [((1 : Int), (4 : Int)), (3, 5), (5, 2), (9, 3)].Perm
        (copyOut (loadReservationsUnorderedMap (fun t => t.toNat) [5, 3, 5, 9, 1, 3]).entries) ∧
      [((1 : Int), (4 : Int)), (3, 5), (5, 2), (9, 3)].Pairwise pairNotAfter ∧
      copyOut (loadReservationsMap [5, 3, 5, 9, 1, 3]) = [(1, 4), (3, 5), (5, 2), (9, 3)] :=
  ⟨by decide, by decide,
    (ordered_traversal_is_sorted_copy (fun t => t.toNat) [5, 3, 5, 9, 1, 3]).2.2 _
      (by decide) (by decide)⟩

/-- Claim C3, at the input where the code fails: with an empty dictionary
(`numWords = 0`) and `numSearches ≥ 2`, the first round of the loop at lines 50-52
evaluates `i % dictionaryWords.size()` with a zero divisor, whatever the random source
and the hash function. -/
theorem spell_checker_empty_dictionary_faults {G : Type} (rng : Rng G) (hash : Word → Nat)
    (numSearches : Int) (h : 2 ≤ numSearches) :
    testSpellCheckerScenario rng hash 0 numSearches = .error .remByZero := by
  rw [testSpellCheckerScenario, buildSearchData_empty_dictionary rng numSearches h]

theorem spell_checker_empty_dictionary_faults_witness :
    (2 : Int) ≤ 2 ∧
      testSpellCheckerScenario lcg (fun w => w.length) 0 2 = .error .remByZero :=
  ⟨by decide, spell_checker_empty_dictionary_faults lcg (fun w => w.length) 2 (by decide)⟩

/-- Claim C4: for every generator state and every `length ≥ 0`, given that each draw of
the distribution lies in `[0, 25]`, `generateRandomWord` returns a string of exactly
`length` characters, each one of `'a'..'z'`; for `length = 0` it is the empty string. -/
theorem generateRandomWord_length_and_alphabet {G : Type} (rng : Rng G) (gen : G)
    (length : Int) (hlen : 0 ≤ length) (hr : rng.DrawsWithin 0 25) :
    ∃ word g, generateRandomWord rng gen length = .ok (word, g) ∧
      (word.length : Int) = length ∧
      (∀ c ∈ word, c ∈ characters ∧ 'a' ≤ c ∧ c ≤ 'z') ∧
      (length = 0 → word = []) := by
  obtain ⟨w, g, hw, hl, hmem⟩ := generateRandomWord_ok rng hr gen length
  refine ⟨w, g, hw, by omega, fun c hc => ⟨hmem c hc, characters_lowercase c (hmem c hc)⟩, ?_⟩
  intro h0
  apply List.eq_nil_of_length_eq_zero
  rw [hl, h0]
  rfl

theorem generateRandomWord_length_and_alphabet_witness :
    (0 : Int) ≤ 8 ∧ lcg.DrawsWithin 0 25 ∧
      ∃ word g, generateRandomWord lcg 42 8 = .ok (word, g) ∧
        (word.length : Int) = 8 ∧
        (∀ c ∈ word, c ∈ characters ∧ 'a' ≤ c ∧ c ≤ 'z') ∧
        ((8 : Int) = 0 → word = []) :=
  ⟨by decide, lcg_drawsWithin 0 25 (by decide),
    generateRandomWord_length_and_alphabet lcg 42 8 (by decide)
      (lcg_drawsWithin 0 25 (by decide))⟩

/-- Claim C5, at the input where the code fails: with an empty dictionary
(`numWords = 0`) and `numSearches = 2k`, `k ≥ 1`, no search list of `2k` terms is
built; round `i = 0` of the loop at lines 50-52 takes `0 % dictionaryWords.size()`
with a zero divisor.  The defect is the one of claim C3. -/
theorem search_list_empty_dictionary_faults {G : Type} (rng : Rng G) (k : Int)
    (hk : 1 ≤ k) : buildSearchData rng 0 (2 * k) = .error .remByZero :=
  buildSearchData_empty_dictionary rng (2 * k) (by omega)

theorem search_list_empty_dictionary_faults_witness :
    (1 : Int) ≤ 1 ∧ buildSearchData lcg 0 (2 * 1) = .error .remByZero :=
  ⟨by decide, search_list_empty_dictionary_faults lcg 1 (by decide)⟩

/-- The even split of the search list wherever the dictionary loop runs without fault
(a non-empty dictionary, or `k = 0`): for `numSearches = 2k`, `wordsToSearch` has
exactly `2k` terms; term `i < k` is `dictionaryWords[i mod numWords]`, and the other
`k` terms are the 8-character words that `k` further calls of `generateRandomWord`
produce from the generator state left by the dictionary loop. -/
theorem search_list_even_split {G : Type} (rng : Rng G) (numWords k : Int) (hk : 0 ≤ k)
    (hw : 0 < numWords ∨ k = 0) (hr : rng.DrawsWithin 0 25) :
    ∃ dict g1 fresh g2 d,
      pushRandomWords rng numWords.toNat (rng.seed 42) [] = .ok (dict, g1) ∧
      pushRandomWords rng k.toNat g1 [] = .ok (fresh, g2) ∧
      buildSearchData rng numWords (2 * k) = .ok d ∧
      d.dictionaryWords = dict ∧
      (dict.length : Int) = max numWords 0 ∧
      (d.wordsToSearch.length : Int) = 2 * k ∧
      (∀ i : Nat, (i : Int) < k → ∃ w, d.wordsToSearch[i]? = some w ∧
        dict[i % numWords.toNat]? = some w) ∧
      d.wordsToSearch.drop k.toNat = fresh ∧
      (fresh.length : Int) = k ∧
      (∀ w ∈ fresh, w.length = 8) := by
  have hhalf : ((2 * k).tdiv 2).toNat = k.toNat := by
    rw [Int.tdiv_eq_ediv (by omega) (by omega)]
    congr 1
    omega
  obtain ⟨dict, g1, first, fresh, g2, hdict, hfresh, hb, hdl, hfl, hrl, hget, _, hfm⟩ :=
    buildSearchData_ok rng hr numWords (2 * k) (by
      rcases hw with hw | hw
      · exact Or.inl hw
      · right; rw [hhalf, hw]; rfl)
  rw [hhalf] at hfresh hfl hrl hget
  refine ⟨dict, g1, fresh, g2, _, hdict, hfresh, hb, rfl, by omega, ?_, ?_, ?_, by omega,
    fun w hw1 => (hfm w hw1).1⟩
  · simp only [List.length_append]
    omega
  · intro i hi
    obtain ⟨w, h1, h2⟩ := hget i (by omega)
    refine ⟨w, ?_, by rw [← hdl]; exact h2⟩
    simp only
    rw [List.getElem?_append_left (by omega)]
    exact h1
  · simp only
    rw [← hfl, List.drop_left]

theorem search_list_even_split_witness :
    (0 : Int) ≤ 2 ∧ ((0 : Int) < 5 ∨ (2 : Int) = 0) ∧ lcg.DrawsWithin 0 25 ∧
      ∃ d, buildSearchData lcg 5 (2 * 2) = .ok d ∧ (d.wordsToSearch.length : Int) = 2 * 2 := by
  refine ⟨by decide, by decide, lcg_drawsWithin 0 25 (by decide), ?_⟩
  obtain ⟨_, _, _, _, d, _, _, hb, _, _, hl, _⟩ :=
    search_list_even_split lcg 5 2 (by decide) (by decide) (lcg_drawsWithin 0 25 (by decide))
  exact ⟨d, hb, hl⟩

/-- Claim C6: for every `numRanges` and every generator state, given that each draw of
`timeDistrib` lies in `[0, 86400 * 365]`, range generation returns `numRanges` ranges
without overflow in `start + draw % 86400`, and every range `(start, end)` satisfies
`0 ≤ end - start < 86400`, hence `start ≤ end`. -/
theorem generated_ranges_bounded {G : Type} (rng : Rng G) (numRanges : Int) (gen : G)
    (hr : rng.DrawsWithin 0 (86400 * 365)) :
    ∃ ranges g, pushRanges rng numRanges.toNat gen [] = .ok (ranges, g) ∧
      ranges.length = numRanges.toNat ∧
      ∀ r ∈ ranges, 0 ≤ r.2 - r.1 ∧ r.2 - r.1 < 86400 ∧ r.1 ≤ r.2 ∧
        -TIME_T_MAX - 1 ≤ r.2 ∧ r.2 ≤ TIME_T_MAX := by
  obtain ⟨rs, g, h, hlen, hmem⟩ := pushRanges_ok rng hr numRanges.toNat gen []
  refine ⟨rs, g, by simpa using h, hlen, fun r hr1 => ?_⟩
  have := hmem r hr1
  simp only [TIME_T_MAX]
  omega

theorem generated_ranges_bounded_witness :
    lcg.DrawsWithin 0 (86400 * 365) ∧
      ∃ ranges g, pushRanges lcg (3 : Int).toNat 42 [] = .ok (ranges, g) ∧
        ranges.length = (3 : Int).toNat ∧
        ∀ r ∈ ranges, 0 ≤ r.2 - r.1 ∧ r.2 - r.1 < 86400 ∧ r.1 ≤ r.2 ∧
          -TIME_T_MAX - 1 ≤ r.2 ∧ r.2 ≤ TIME_T_MAX :=
  ⟨lcg_drawsWithin 0 (86400 * 365) (by decide),
    generated_ranges_bounded lcg 3 42 (lcg_drawsWithin 0 (86400 * 365) (by decide))⟩

/-- Claim C7: for every list of timestamps, duplicates allowed, the ordered map and the
hash map hold the same association after their load loops: in both, keys are unique,
the keys are exactly the timestamps that occur, and each key is mapped to the largest
index at which it occurs (last write wins). -/
theorem load_same_association (hash : Int → Nat) (timestamps : List Int) :
    ((loadReservationsMap timestamps).map Prod.fst).Nodup ∧
      ((loadReservationsUnorderedMap hash timestamps).entries.map Prod.fst).Nodup ∧
      (∀ t, t ∈ (loadReservationsMap timestamps).map Prod.fst ↔ t ∈ timestamps) ∧
      (∀ t, t ∈ (loadReservationsUnorderedMap hash timestamps).entries.map Prod.fst ↔
        t ∈ timestamps) ∧
      (∀ t v, (t, v) ∈ loadReservationsMap timestamps ↔ IsLastIndex timestamps t v) ∧
      (∀ t v, (t, v) ∈ (loadReservationsUnorderedMap hash timestamps).entries ↔
        IsLastIndex timestamps t v) ∧
      (∀ e, e ∈ loadReservationsMap timestamps ↔
        e ∈ (loadReservationsUnorderedMap hash timestamps).entries) := by
  obtain ⟨ho, hmo⟩ := loadReservationsMap_spec timestamps
  obtain ⟨hu, hmu⟩ := loadReservationsUnorderedMap_spec hash timestamps
  refine ⟨ordered_keys_nodup _ ho, hu.2.2, ?_, ?_, hmo, hmu,
    fun e => (reservations_perm hash timestamps).mem_iff⟩
  · intro t
    rw [← isLastIndex_key_iff timestamps t, List.mem_map]
    constructor
    · rintro ⟨⟨t1, v⟩, h, rfl⟩
      exact ⟨v, (hmo t1 v).1 h⟩
    · rintro ⟨v, h⟩
      exact ⟨(t, v), (hmo t v).2 h, rfl⟩
  · intro t
    rw [← isLastIndex_key_iff timestamps t, List.mem_map]
    constructor
    · rintro ⟨⟨t1, v⟩, h, rfl⟩
      exact ⟨v, (hmu t1 v).1 h⟩
    · rintro ⟨v, h⟩
      exact ⟨(t, v), (hmu t v).2 h, rfl⟩

/-- Counterexample to claim C8 as stated: with `numWords = 5` and `numSearches = 3` the
dictionary-drawn half and the random half of the search list hold one term each, so
the second half is not one term shorter than the first. -/
theorem odd_searches_second_half_not_shorter :
    ∃ d, buildSearchData lcg 5 3 = .ok d ∧
      d.firstHalf.length = 1 ∧
      d.wordsToSearch.length - d.firstHalf.length = 1 ∧
      ¬ (d.wordsToSearch.length - d.firstHalf.length + 1 = d.firstHalf.length) :=
  ⟨_, rfl, rfl, rfl, by decide⟩

/-- Claim C8, amended: for every odd `numSearches ≥ 1` (and a non-empty dictionary
whenever `numSearches ≥ 3`), truncating division gives both halves of the search list
`(numSearches - 1) / 2` terms each, so the second half is as long as the first and the
list as a whole has one term fewer than `numSearches`. -/
theorem odd_searches_halves_equal {G : Type} (rng : Rng G) (numWords numSearches : Int)
    (hodd : numSearches % 2 = 1) (hpos : 1 ≤ numSearches)
    (hw : 0 < numWords ∨ numSearches = 1) (hr : rng.DrawsWithin 0 25) :
    ∃ d, buildSearchData rng numWords numSearches = .ok d ∧
      d.firstHalf <+: d.wordsToSearch ∧
      (d.firstHalf.length : Int) = (numSearches - 1) / 2 ∧
      ((d.wordsToSearch.length - d.firstHalf.length : Nat) : Int) = (numSearches - 1) / 2 ∧
      (d.wordsToSearch.length : Int) = numSearches - 1 := by
  have hhalf : ((numSearches.tdiv 2).toNat : Int) = (numSearches - 1) / 2 := by
    rw [Int.tdiv_eq_ediv (by omega) (by omega)]
    omega
  obtain ⟨dict, g1, first, fresh, g2, _, _, hb, _, hfl, hrl, _⟩ :=
    buildSearchData_ok rng hr numWords numSearches (by
      rcases hw with hw | hw
      · exact Or.inl hw
      · right; rw [hw]; rfl)
  refine ⟨_, hb, List.prefix_append _ _, by simp only; omega, ?_, ?_⟩
  · simp only [List.length_append]
    omega
  · simp only [List.length_append]
    omega

theorem odd_searches_halves_equal_witness :
    (3 : Int) % 2 = 1 ∧ (1 : Int) ≤ 3 ∧ ((0 : Int) < 5 ∨ (3 : Int) = 1) ∧
      lcg.DrawsWithin 0 25 ∧
      ∃ d, buildSearchData lcg 5 3 = .ok d ∧
        d.firstHalf <+: d.wordsToSearch ∧
        (d.firstHalf.length : Int) = (3 - 1) / 2 ∧
        ((d.wordsToSearch.length - d.firstHalf.length : Nat) : Int) = (3 - 1) / 2 ∧
        (d.wordsToSearch.length : Int) = 3 - 1 :=
  ⟨by decide, by decide, by decide, lcg_drawsWithin 0 25 (by decide),
    odd_searches_halves_equal lcg 5 3 (by decide) (by decide) (by decide)
      (lcg_drawsWithin 0 25 (by decide))⟩

/-- Claim C9: for every dictionary word list and every search list, `numFound` over
the ordered map equals `numFound` over the hash map, and both equal the number of
search terms that occur in `dictionaryWords`; hence, when `numWords > 0` (and the
draws lie in `[0, 25]`), the scenario returns two equal counters that are at least
`numSearches / 2`. -/
theorem numFound_agrees (hash : Word → Nat) (dictionaryWords wordsToSearch : List Word) :
    searchMap (loadDictionaryMap dictionaryWords) wordsToSearch =
        searchUnorderedMap hash (loadDictionaryUnorderedMap hash dictionaryWords)
          wordsToSearch ∧
      searchMap (loadDictionaryMap dictionaryWords) wordsToSearch =
        wordsToSearch.countP (fun w => decide (w ∈ dictionaryWords)) ∧
      ∀ (G : Type) (rng : Rng G) (numWords numSearches : Int),
        rng.DrawsWithin 0 25 → 0 < numWords →
        ∃ n, testSpellCheckerScenario rng hash numWords numSearches = .ok (n, n) ∧
          numSearches.tdiv 2 ≤ (n : Int) := by
  refine ⟨by rw [searchMap_eq, searchUnorderedMap_eq], searchMap_eq _ _, ?_⟩
  intro G rng numWords numSearches hr hw
  obtain ⟨d, _, h1, h2⟩ :=
    testSpellCheckerScenario_ok rng hash hr numWords numSearches (Or.inl hw)
  exact ⟨_, h1, by omega⟩

theorem numFound_agrees_witness :
    lcg.DrawsWithin 0 25 ∧ (0 : Int) < 5 ∧
      ∃ n, testSpellCheckerScenario lcg (fun w => w.length) 5 4 = .ok (n, n) ∧
        (4 : Int).tdiv 2 ≤ (n : Int) :=
  ⟨lcg_drawsWithin 0 25 (by decide), by decide,
    (numFound_agrees (fun w => w.length) [] []).2.2 Nat lcg 5 4
      (lcg_drawsWithin 0 25 (by decide)) (by decide)⟩

/-- Claim C10: for every contents of the ordered map and every range with
`start ≤ stop`, `lower_bound(start)` is not after `upper_bound(stop)`, which is not
after `end()`; so the loop `for (it = it_start; it != it_end; ++it)` reaches `it_end`
after `it_end - it_start ≤ size` increments, never incrementing `end()`. -/
theorem range_loop_terminates (m : OMap Int Int) (start stop : Int) (hse : start ≤ stop)
    (total : Nat) :
    OMap.lower_bound m start ≤ OMap.upper_bound m stop ∧
      OMap.upper_bound m stop ≤ m.length ∧
      ∃ steps, steps ≤ m.length ∧
        steps = OMap.upper_bound m stop - OMap.lower_bound m start ∧
        (∀ fuel, steps < fuel →
          rangeLoop m.length fuel (OMap.lower_bound m start) (OMap.upper_bound m stop) total =
            .ok (total + steps)) ∧
        rangeSearchOne m (start, stop) total = .ok (total + steps) := by
  have h1 := OMap.lower_bound_le_upper_bound m start stop hse
  have h2 := OMap.upper_bound_le_length m stop
  refine ⟨h1, h2, _, by omega, rfl, fun fuel hf => rangeLoop_ok _ _ _ _ _ h1 h2 hf, ?_⟩
  exact rangeLoop_ok m.length (m.length + 1) (OMap.lower_bound m start)
    (OMap.upper_bound m stop) total h1 h2 (by omega)

theorem range_loop_terminates_witness :
    (3 : Int) ≤ 5 ∧
      rangeSearchOne [(1, 4), (3, 5), (5, 2), (9, 3)] (3, 5) 0 = .ok 2 := by
  refine ⟨by decide, ?_⟩
  obtain ⟨_, _, steps, _, hs, _, h⟩ :=
    range_loop_terminates [(1, 4), (3, 5), (5, 2), (9, 3)] 3 5 (by decide) 0
  rw [h, hs]
  rfl


end MapsBenchmark
